import Mathlib

/-!
Verification of the FIFO holdings ledger, valuation engine and target-profit
solver of `portfolio_simulation.py`.

Modelling conventions:
* Monetary amounts and share counts (Python `float`) are modelled as exact
  rationals (`ℚ`).
* Python dicts keyed by instrument name are modelled as association lists in
  insertion order (assignment to an existing key updates in place, a new key
  is appended — CPython dict semantics).
* The `print`-ed warnings are modelled as an explicit warning log carried in
  the portfolio state.
* A `float(s)` parse that may raise `ValueError` is modelled as an
  `Option ℚ` field (`none` = unparsable).
* Python `str.lower()` is modelled as per-character `Char.toLower` (all
  strings appearing in the alias table are plain ASCII).
-/

/-- Python `s.lower()`, modelled character by character. -/
def strLower (s : String) : String := String.mk (s.data.map Char.toLower)

/-- Generic association-list lookup, mirroring `d.get(k)` / `d[k]` on a
Python dict whose keys are strings. -/
def alistGet {α : Type} : List (String × α) → String → Option α
  | [], _ => none
  | (k', v) :: rest, k => if k' = k then some v else alistGet rest k

/-- Generic association-list store, mirroring `d[k] = v` on a Python dict:
an existing key keeps its position, a new key is appended at the end. -/
def alistSet {α : Type} : List (String × α) → String → α → List (String × α)
  | [], k, v => [(k, v)]
  | (k', v') :: rest, k, v =>
    if k' = k then (k, v) :: rest else (k', v') :: alistSet rest k v

/-- The `ALIAS_MAPPING` table from the source: canonical name → list of aliases. -/
def ALIAS_MAPPING : List (String × List String) :=
  [("amundi msci world v (acc)",
    ["amundi msci world v (acc)",
     "amundi msci world v ucits etf acc",
     "amundi msci world v",
     "lyxor core msci world (dr) ucits etf - acc"]),
   ("ishares core msci europe (acc)",
    ["ishares core msci europe (acc)",
     "ishares core msci europe ucits etf eur (acc)",
     "ishares core msci europe ucits etf eur",
     "ishares core msci europe"]),
   ("amundi msci emerging markets ii (dist)",
    ["amundi msci emerging markets ii (dist)",
     "amundi msci emerging markets ii ucits etf dist",
     "amundi msci emerging markets ii ucits etf",
     "amundi msci emerging markets ii",
     "lyxor msci emerging markets (lux) ucits etf",
     "lu2573966905"])]

/-- Reverse mapping alias → canonical name (`INSTRUMENT_ALIAS` in the
source).  All alias strings in `ALIAS_MAPPING` are distinct, so first-match
lookup over this list agrees with the Python dict built by the source. -/
def INSTRUMENT_ALIAS : List (String × String) :=
  ALIAS_MAPPING.flatMap (fun kv => kv.2.map (fun a => (strLower a, kv.1)))

/-- The function `get_canonical_name` from the source: alias-table lookup of the
lower-cased name, defaulting to the lower-cased name itself. -/
def get_canonical_name (instrument_name : String) : String :=
  (alistGet INSTRUMENT_ALIAS (strLower instrument_name)).getD (strLower instrument_name)

/-- The `FIXED_PRICES` table from the source (18.80, 78.96 and 47.12 as exact
rationals). -/
def FIXED_PRICES : List (String × ℚ) :=
  [("amundi msci world v (acc)", 94/5),
   ("ishares core msci europe (acc)", 1974/25),
   ("amundi msci emerging markets ii (dist)", 1178/25)]

/-- A purchase lot (`Lot` dataclass in the source). -/
structure Lot where
  date : String
  shares : ℚ
  cost_per_share : ℚ
deriving DecidableEq

/-- Per-instrument holdings (`HoldingsData` dataclass in the source). -/
structure HoldingsData where
  lots : List Lot
  total_shares : ℚ
  current_price : Option ℚ := none
  current_value : Option ℚ := none
  total_cost : Option ℚ := none
  unrealized_pl : Option ℚ := none
deriving DecidableEq

/-- One CSV row as consumed by `process_transactions`, after the numeric
fields have been put through `float(...)`: `none` models a `ValueError`. -/
structure Transaction where
  date : String
  ttype : String
  instrument : String
  amount : Option ℚ
  shares : Option ℚ
deriving DecidableEq

/-- The warnings the source `print`s while processing. -/
inductive Warning where
  | invalidDistributionAmount : Warning
  | invalidTransaction : Warning
  | oversold (instrument : String) : Warning
  | notInHoldings (instrument : String) : Warning
  | noFixedPrice (instrument : String) : Warning
deriving DecidableEq

/-- The mutable state of `process_transactions`: the holdings dict, the
running realized P&L, and the log of emitted warnings. -/
structure PortfolioState where
  holdings : List (String × HoldingsData)
  realized_pl : ℚ
  warnings : List Warning
deriving DecidableEq

/-- Sum of `lot.shares` over a lot list. -/
def totalSharesOfLots (lots : List Lot) : ℚ :=
  (lots.map Lot.shares).sum

/-- Sum of `lot.shares * lot.cost_per_share` over a lot list (the
`total_cost` accumulation of `simulate_portfolio`). -/
def totalCostOfLots (lots : List Lot) : ℚ :=
  (lots.map (fun lot => lot.shares * lot.cost_per_share)).sum

/-- The FIFO `while` loop of the Sell / Swap-out branch of
`process_transactions`.  Returns
`(realized profit delta, shares consumed, remaining lots, leftover shares_to_sell)`;
a positive leftover is the over-sell condition the source warns about. -/
def fifoSell (sale_price_per_share : ℚ) (shares_to_sell : ℚ) :
    List Lot → ℚ × ℚ × List Lot × ℚ
  | [] => (0, 0, [], shares_to_sell)
  | lot :: rest =>
    if shares_to_sell > 0 then
      if lot.shares ≤ shares_to_sell then
        -- sell the entire lot
        let r := fifoSell sale_price_per_share (shares_to_sell - lot.shares) rest
        ((sale_price_per_share - lot.cost_per_share) * lot.shares + r.1,
         lot.shares + r.2.1, r.2.2.1, r.2.2.2)
      else
        -- sell part of the lot
        ((sale_price_per_share - lot.cost_per_share) * shares_to_sell,
         shares_to_sell,
         { lot with shares := lot.shares - shares_to_sell } :: rest, 0)
    else (0, 0, lot :: rest, shares_to_sell)

/-- One iteration of the transaction loop of `process_transactions`. -/
def processTx (st : PortfolioState) (row : Transaction) : PortfolioState :=
  let transaction_type := row.ttype
  let instrument_canonical := get_canonical_name row.instrument
  if transaction_type = "Deposit" ∨ transaction_type = "Withdrawal" then
    st
  else if transaction_type = "Distribution" then
    match row.amount with
    | some amount => { st with realized_pl := st.realized_pl + amount }
    | none => { st with warnings := st.warnings ++ [Warning.invalidDistributionAmount] }
  else
    match row.amount, row.shares with
    | some amount, some shares =>
      if transaction_type = "Buy" ∨ transaction_type = "Savings Plan" ∨
          transaction_type = "Swap in" then
        let entry := (alistGet st.holdings instrument_canonical).getD
          ({ lots := [], total_shares := 0 })
        let cost_per_share := if shares ≠ 0 then abs (amount / shares) else 0
        let newLot : Lot :=
          { date := row.date, shares := shares, cost_per_share := cost_per_share }
        let entry1 : HoldingsData :=
          { entry with
            lots := entry.lots ++ [newLot],
            total_shares := entry.total_shares + shares }
        { st with holdings := alistSet st.holdings instrument_canonical entry1 }
      else if transaction_type = "Sell" ∨ transaction_type = "Swap out" then
        match alistGet st.holdings instrument_canonical with
        | some entry =>
          let sale_price_per_share := if shares ≠ 0 then amount / shares else 0
          let r := fifoSell sale_price_per_share shares entry.lots
          let entry1 : HoldingsData :=
            { entry with lots := r.2.2.1, total_shares := entry.total_shares - r.2.1 }
          { st with
            holdings := alistSet st.holdings instrument_canonical entry1,
            realized_pl := st.realized_pl + r.1,
            warnings :=
              if r.2.2.2 > 0 then st.warnings ++ [Warning.oversold instrument_canonical]
              else st.warnings }
        | none =>
          { st with warnings := st.warnings ++ [Warning.notInHoldings instrument_canonical] }
      else st
    | _, _ => { st with warnings := st.warnings ++ [Warning.invalidTransaction] }

/-- The function `process_transactions` from the source: fold the transaction list over
the empty portfolio state. -/
def process_transactions (transactions : List Transaction) : PortfolioState :=
  transactions.foldl processTx { holdings := [], realized_pl := 0, warnings := [] }

/-- The body of the `for instrument, data in holdings.items()` loop of
`simulate_portfolio`, one entry at a time.  Returns the updated holdings
list together with `(total_current_value, total_unrealized_pl, warnings)`. -/
def simulateEntries :
    List (String × HoldingsData) → List (String × HoldingsData) × ℚ × ℚ × List Warning
  | [] => ([], 0, 0, [])
  | (instrument, data) :: rest =>
    let r := simulateEntries rest
    if data.total_shares > 0 then
      match alistGet FIXED_PRICES instrument with
      | none => ((instrument, data) :: r.1, r.2.1, r.2.2.1,
          Warning.noFixedPrice instrument :: r.2.2.2)
      | some current_price =>
        let total_cost := totalCostOfLots data.lots
        let total_value := data.total_shares * current_price
        let unrealized_pl := total_value - total_cost
        ((instrument,
          { data with
            current_price := some current_price,
            current_value := some total_value,
            total_cost := some total_cost,
            unrealized_pl := some unrealized_pl }) :: r.1,
         total_value + r.2.1, unrealized_pl + r.2.2.1, r.2.2.2)
    else ((instrument, data) :: r.1, r.2.1, r.2.2.1, r.2.2.2)

/-- The function `simulate_portfolio` from the source.  Returns
`(holdings, total_current_value, total_profit, total_unrealized_pl, realized_pl)`
plus the warning log of the skipped (price-less) instruments. -/
def simulate_portfolio (holdings : List (String × HoldingsData)) (realized_pl : ℚ) :
    List (String × HoldingsData) × ℚ × ℚ × ℚ × ℚ × List Warning :=
  let r := simulateEntries holdings
  (r.1, r.2.1, realized_pl + r.2.2.1, r.2.2.1, realized_pl, r.2.2.2)

/-- Result printed for one instrument by `calculate_shares_to_sell`:
either a feasible plan, the infeasible report, or the `NameError` the
source would raise when the adjustment step reads the loop variable `lot`
although the `for` loop never ran (empty lot queue). -/
inductive PlanResult where
  | feasible (shares_to_sell total_proceeds total_cost_basis realized_profit : ℚ)
  | infeasible (shares_to_sell realized_profit : ℚ)
  | nameError
deriving DecidableEq

/-- The `for lot in data.lots` accumulation loop of
`calculate_shares_to_sell`, with its early `break` once
`realized_profit >= desired_profit`.  The accumulators are
`(shares_to_sell, realized_profit, total_proceeds, total_cost_basis)`; the
final component models the Python loop variable `lot` (assigned at the head
of each iteration, including the one that breaks). -/
def solveLoop (current_price desired_profit : ℚ) :
    List Lot → ℚ → ℚ → ℚ → ℚ → Option Lot → ℚ × ℚ × ℚ × ℚ × Option Lot
  | [], shares_to_sell, realized_profit, total_proceeds, total_cost_basis, lastLot =>
    (shares_to_sell, realized_profit, total_proceeds, total_cost_basis, lastLot)
  | lot :: rest, shares_to_sell, realized_profit, total_proceeds, total_cost_basis, _ =>
    if realized_profit ≥ desired_profit then
      (shares_to_sell, realized_profit, total_proceeds, total_cost_basis, some lot)
    else
      let sellable_shares := lot.shares
      let proceeds := sellable_shares * current_price
      let cost_basis := sellable_shares * lot.cost_per_share
      let profit := proceeds - cost_basis
      solveLoop current_price desired_profit rest
        (shares_to_sell + sellable_shares) (realized_profit + profit)
        (total_proceeds + proceeds) (total_cost_basis + cost_basis) (some lot)

/-- The per-instrument body of `calculate_shares_to_sell`: `none` when the
entry is skipped by the `data.total_shares > 0 and data.current_price`
guard (in Python a price of `None` or `0.0` is falsy). -/
def calcEntryPlan (data : HoldingsData) (desired_profit : ℚ) : Option PlanResult :=
  match data.current_price with
  | none => none
  | some current_price =>
    if data.total_shares > 0 ∧ current_price ≠ 0 then
      let r := solveLoop current_price desired_profit data.lots 0 0 0 0 none
      if r.2.1 ≥ desired_profit then
        match r.2.2.2.2 with
        | some lot =>
          let excess_profit := r.2.1 - desired_profit
          let excess_shares :=
            if current_price ≠ lot.cost_per_share then
              excess_profit / (current_price - lot.cost_per_share)
            else 0
          some (PlanResult.feasible (r.1 - excess_shares)
            (r.2.2.1 - excess_shares * current_price)
            (r.2.2.2.1 - excess_shares * lot.cost_per_share)
            desired_profit)
        | none => some PlanResult.nameError
      else some (PlanResult.infeasible r.1 r.2.1)
    else none

/-- The function `calculate_shares_to_sell` from the source.  The function only reads the
holdings dict and prints plans; to make that frame explicit the state is
threaded through and returned alongside the per-instrument console
output. -/
def calculate_shares_to_sell (holdings : List (String × HoldingsData))
    (desired_profit : ℚ) :
    List (String × HoldingsData) × List (String × Option PlanResult) :=
  (holdings, holdings.map (fun kv => (kv.1, calcEntryPlan kv.2 desired_profit)))

/-! ### Specification-side definitions

These are written from the wording of the specification, to be compared
with the executable embeddings above. -/

/-- Modelled from the spec: the FIFO cost basis of the `s` oldest shares of
a lot queue (cost of whole lots while they fit, pro-rated cost of the final
partially-consumed lot). -/
def fifoCost : ℚ → List Lot → ℚ
  | _, [] => 0
  | s, lot :: rest =>
    if lot.shares ≤ s then lot.shares * lot.cost_per_share + fifoCost (s - lot.shares) rest
    else s * lot.cost_per_share

/-- Modelled from the spec: the lot queue left after FIFO-consuming the `s`
oldest shares (pop whole lots while they fit, reduce the final lot in
place). -/
def fifoRest : ℚ → List Lot → List Lot
  | _, [] => []
  | s, lot :: rest =>
    if s ≤ 0 then lot :: rest
    else if lot.shares ≤ s then fifoRest (s - lot.shares) rest
    else { lot with shares := lot.shares - s } :: rest

/-- Profit realized by selling a whole lot list at `price` (the spec's
maximum achievable profit of an instrument). -/
def profitOfLots (price : ℚ) (lots : List Lot) : ℚ :=
  price * totalSharesOfLots lots - totalCostOfLots lots

/-- The Python `for`-loop variable after iterating a list: the last element
when the list is non-empty, otherwise whatever it was before. -/
def lastOf : List Lot → Option Lot → Option Lot
  | [], l0 => l0
  | lot :: rest, _ => lastOf rest (some lot)

/-- Modelled from the spec: the valuation annotation of a single holdings
entry — entries with a price and positive shares receive the four derived
fields, all others are untouched. -/
def annotateEntry (kv : String × HoldingsData) : String × HoldingsData :=
  if kv.2.total_shares > 0 then
    match alistGet FIXED_PRICES kv.1 with
    | some p =>
      (kv.1,
       { kv.2 with
         current_price := some p,
         current_value := some (kv.2.total_shares * p),
         total_cost := some (totalCostOfLots kv.2.lots),
         unrealized_pl := some (kv.2.total_shares * p - totalCostOfLots kv.2.lots) })
    | none => kv
  else kv

/-- Modelled from the spec: the contribution of one entry to
`total_current_value` (zero when the entry is skipped). -/
def entryValue (kv : String × HoldingsData) : ℚ :=
  if kv.2.total_shares > 0 then
    match alistGet FIXED_PRICES kv.1 with
    | some p => kv.2.total_shares * p
    | none => 0
  else 0

/-- Modelled from the spec: the contribution of one entry to
`total_unrealized_pl` (zero when the entry is skipped). -/
def entryUnrealized (kv : String × HoldingsData) : ℚ :=
  if kv.2.total_shares > 0 then
    match alistGet FIXED_PRICES kv.1 with
    | some p => kv.2.total_shares * p - totalCostOfLots kv.2.lots
    | none => 0
  else 0

/-- Modelled from the spec: the missing-price warning of one entry, if
any. -/
def entryWarning (kv : String × HoldingsData) : Option Warning :=
  if kv.2.total_shares > 0 then
    match alistGet FIXED_PRICES kv.1 with
    | some _ => none
    | none => some (Warning.noFixedPrice kv.1)
  else none

/-- The core ledger invariant of the spec: every holdings entry's
`total_shares` equals the sum of its lots' share counts. -/
def LedgerInv (st : PortfolioState) : Prop :=
  ∀ kv ∈ st.holdings, kv.2.total_shares = totalSharesOfLots kv.2.lots


/-! ### Helper lemmas -/

theorem totalSharesOfLots_nil : totalSharesOfLots [] = 0 := rfl

theorem totalSharesOfLots_cons (lot : Lot) (rest : List Lot) :
    totalSharesOfLots (lot :: rest) = lot.shares + totalSharesOfLots rest := by
  simp [totalSharesOfLots]

theorem totalCostOfLots_cons (lot : Lot) (rest : List Lot) :
    totalCostOfLots (lot :: rest) = lot.shares * lot.cost_per_share + totalCostOfLots rest := by
  simp [totalCostOfLots]

theorem totalSharesOfLots_nonneg (lots : List Lot) (hpos : ∀ lot ∈ lots, 0 < lot.shares) :
    0 ≤ totalSharesOfLots lots := by
  induction lots with
  | nil => simp [totalSharesOfLots]
  | cons lot rest ih =>
    have h1 := hpos lot (List.mem_cons_self _ _)
    have h2 := ih (fun l hl => hpos l (List.mem_cons_of_mem _ hl))
    rw [totalSharesOfLots_cons]
    linarith

/-- Under sufficient holdings, the FIFO loop consumes exactly the requested
shares, realizes `price * s - fifoCost s lots`, leaves `fifoRest s lots`
and no unmatched remainder. -/
theorem fifoSell_spec (price s : ℚ) (lots : List Lot)
    (hpos : ∀ lot ∈ lots, 0 < lot.shares) (h0 : 0 ≤ s)
    (hle : s ≤ totalSharesOfLots lots) :
    fifoSell price s lots = (price * s - fifoCost s lots, s, fifoRest s lots, 0) := by
  induction lots generalizing s with
  | nil =>
    have hs : s = 0 := le_antisymm (by simpa [totalSharesOfLots] using hle) h0
    subst hs
    simp [fifoSell, fifoCost, fifoRest]
  | cons lot rest ih =>
    have hlot : 0 < lot.shares := hpos lot (List.mem_cons_self _ _)
    rcases eq_or_lt_of_le h0 with hs | hs
    · -- s = 0: the loop guard fails immediately
      rw [← hs]
      simp only [fifoSell, fifoCost, fifoRest]
      rw [if_neg (lt_irrefl 0), if_neg (not_le.mpr hlot), if_pos le_rfl]
      simp [Prod.mk.injEq]
    · by_cases hls : lot.shares ≤ s
      · -- pop the whole first lot
        have h0' : 0 ≤ s - lot.shares := sub_nonneg.mpr hls
        have hle' : s - lot.shares ≤ totalSharesOfLots rest := by
          rw [totalSharesOfLots_cons] at hle
          linarith
        have ihr := ih (s - lot.shares) (fun l hl => hpos l (List.mem_cons_of_mem _ hl))
          h0' hle'
        simp only [fifoSell, if_pos hs, if_pos hls, ihr, fifoCost, fifoRest,
          if_neg (not_le.mpr hs), Prod.mk.injEq, and_true, true_and]
        ring_nf
        exact ⟨trivial, trivial⟩
      · -- reduce the first lot in place
        simp only [fifoSell, if_pos hs, if_neg hls, fifoCost, fifoRest,
          if_neg (not_le.mpr hs), Prod.mk.injEq, and_true, true_and]
        ring_nf

/-- When more shares are requested than the lots hold, the FIFO loop
consumes every lot, realizes the whole-queue profit, and leaves a positive
unmatched remainder. -/
theorem fifoSell_all (price s : ℚ) (lots : List Lot)
    (hpos : ∀ lot ∈ lots, 0 < lot.shares)
    (hover : totalSharesOfLots lots < s) :
    fifoSell price s lots =
      (price * totalSharesOfLots lots - totalCostOfLots lots,
       totalSharesOfLots lots, [], s - totalSharesOfLots lots) := by
  induction lots generalizing s with
  | nil => simp [fifoSell, totalSharesOfLots, totalCostOfLots]
  | cons lot rest ih =>
    have hlot : 0 < lot.shares := hpos lot (List.mem_cons_self _ _)
    have hrest : 0 ≤ totalSharesOfLots rest :=
      totalSharesOfLots_nonneg rest (fun l hl => hpos l (List.mem_cons_of_mem _ hl))
    rw [totalSharesOfLots_cons] at hover
    have hs : 0 < s := by linarith
    have hls : lot.shares ≤ s := by linarith
    have ihr := ih (s - lot.shares) (fun l hl => hpos l (List.mem_cons_of_mem _ hl))
      (by linarith)
    simp only [fifoSell, if_pos hs, if_pos hls, ihr, totalSharesOfLots_cons,
      totalCostOfLots_cons, Prod.mk.injEq, and_true, true_and]
    ring_nf
    exact ⟨trivial, trivial⟩

/-- The shares the FIFO loop consumes always equal the drop in the queue's
total share count (no hypotheses needed). -/
theorem fifoSell_consumed (price s : ℚ) (lots : List Lot) :
    (fifoSell price s lots).2.1 =
      totalSharesOfLots lots - totalSharesOfLots (fifoSell price s lots).2.2.1 := by
  induction lots generalizing s with
  | nil => simp [fifoSell, totalSharesOfLots]
  | cons lot rest ih =>
    by_cases hs : s > 0
    · by_cases hls : lot.shares ≤ s
      · have h := ih (s - lot.shares)
        simp only [fifoSell, if_pos hs, if_pos hls, totalSharesOfLots_cons]
        linarith
      · simp only [fifoSell, if_pos hs, if_neg hls, totalSharesOfLots_cons]
        ring
    · simp only [fifoSell, if_neg hs]
      ring

/-- A `fifoSell` of zero shares is a no-op. -/
theorem fifoSell_zero (price : ℚ) (lots : List Lot) :
    fifoSell price 0 lots = (0, 0, lots, 0) := by
  cases lots with
  | nil => rfl
  | cons lot rest => simp [fifoSell]

theorem alistGet_set_self {α : Type} (d : List (String × α)) (k : String) (v : α) :
    alistGet (alistSet d k v) k = some v := by
  induction d with
  | nil => simp [alistGet, alistSet]
  | cons kv rest ih =>
    obtain ⟨k', v'⟩ := kv
    by_cases h : k' = k
    · simp [alistGet, alistSet, h]
    · simp [alistGet, alistSet, h, ih]

/-- Re-storing the value already present leaves the dict unchanged. -/
theorem alistSet_get_self {α : Type} (d : List (String × α)) (k : String) (v : α)
    (h : alistGet d k = some v) : alistSet d k v = d := by
  induction d with
  | nil => simp [alistGet] at h
  | cons kv rest ih =>
    obtain ⟨k', v'⟩ := kv
    by_cases hk : k' = k
    · subst hk
      simp [alistGet] at h
      subst h
      simp [alistSet]
    · simp only [alistGet, if_neg hk] at h
      simp [alistSet, hk, ih h]

/-- A pointwise property of all dict entries survives a store whose new
value satisfies it. -/
theorem alistSet_forall {α : Type} {P : String × α → Prop}
    (d : List (String × α)) (k : String) (v : α)
    (hd : ∀ kv ∈ d, P kv) (hv : P (k, v)) :
    ∀ kv ∈ alistSet d k v, P kv := by
  induction d with
  | nil =>
    intro kv hkv
    simp only [alistSet, List.mem_singleton] at hkv
    exact hkv ▸ hv
  | cons kv0 rest ih =>
    obtain ⟨k', v'⟩ := kv0
    by_cases h : k' = k
    · intro kv hkv
      simp only [alistSet, if_pos h, List.mem_cons] at hkv
      rcases hkv with hkv | hkv
      · exact hkv ▸ hv
      · exact hd kv (List.mem_cons_of_mem _ hkv)
    · intro kv hkv
      simp only [alistSet, if_neg h, List.mem_cons] at hkv
      rcases hkv with hkv | hkv
      · exact hkv ▸ hd _ (List.mem_cons_self _ _)
      · exact ih (fun x hx => hd x (List.mem_cons_of_mem _ hx)) kv hkv

/-- A successful lookup returns an entry of the dict. -/
theorem alistGet_forall {α : Type} {P : String × α → Prop}
    (d : List (String × α)) (k : String) (v : α)
    (hd : ∀ kv ∈ d, P kv) (h : alistGet d k = some v) : P (k, v) := by
  induction d with
  | nil => simp [alistGet] at h
  | cons kv0 rest ih =>
    obtain ⟨k', v'⟩ := kv0
    by_cases hk : k' = k
    · subst hk
      simp [alistGet] at h
      subst h
      exact hd _ (List.mem_cons_self _ _)
    · simp only [alistGet, if_neg hk] at h
      exact ih (fun x hx => hd x (List.mem_cons_of_mem _ hx)) h


/-! ### Claim theorems -/

/-- C8: processing a Distribution transaction with a parsable amount adds
exactly that amount to the running realized P&L and changes nothing else —
no holdings entry is created or touched and no warning is emitted, for
every prior state (including one with no holdings at all). -/
theorem distribution_isolation (st : PortfolioState) (row : Transaction) (a : ℚ)
    (ht : row.ttype = "Distribution") (ha : row.amount = some a) :
    processTx st row = { st with realized_pl := st.realized_pl + a } := by
  simp only [processTx, ht, ha]
  simp

/-- Witness for C8 at the spec's concrete input: a Distribution of €12.34
on the empty portfolio yields realized P&L 12.34 and still no holdings
entry. -/
theorem distribution_isolation_witness :
    processTx ⟨[], 0, []⟩ ⟨"2024-01-01", "Distribution", "", some (617/50), none⟩
      = ⟨[], 617/50, []⟩ := by
  have h := distribution_isolation ⟨[], 0, []⟩
    ⟨"2024-01-01", "Distribution", "", some (617/50), none⟩ (617/50) rfl rfl
  rw [h]
  norm_num

/-- C10: a Sell / Swap-out of zero shares on an instrument that is present
in holdings is a complete no-op: lots, total shares, realized P&L and the
warning log are all unchanged (the FIFO loop guard fails immediately and
the over-sell check does not fire). -/
theorem zero_share_sell_noop (st : PortfolioState) (row : Transaction)
    (entry : HoldingsData) (a : ℚ)
    (ht : row.ttype = "Sell" ∨ row.ttype = "Swap out")
    (ha : row.amount = some a) (hs : row.shares = some 0)
    (he : alistGet st.holdings (get_canonical_name row.instrument) = some entry) :
    processTx st row = st := by
  rcases ht with ht | ht <;>
  · simp only [processTx, ht, ha, hs, he]
    simp [fifoSell_zero, alistSet_get_self st.holdings _ entry he]

/-- Witness for C10: selling 0 shares of a tracked instrument leaves the
concrete state untouched. -/
theorem zero_share_sell_noop_witness :
    processTx ⟨[("acme", ⟨[⟨"2024-01-01", 10, 5⟩], 10, none, none, none, none⟩)], 0, []⟩
        ⟨"2024-01-02", "Sell", "acme", some 0, some 0⟩
      = ⟨[("acme", ⟨[⟨"2024-01-01", 10, 5⟩], 10, none, none, none, none⟩)], 0, []⟩ := by
  exact zero_share_sell_noop _ _ ⟨[⟨"2024-01-01", 10, 5⟩], 10, none, none, none, none⟩ 0
    (Or.inl rfl) rfl rfl
    (by rw [show get_canonical_name "acme" = "acme" from by decide]; simp [alistGet])

/-- C1: a Sell / Swap-out of a tracked instrument covered by the recorded
lots consumes the lot queue strictly oldest-first: the queue becomes
`fifoRest s lots` (whole lots popped, the final lot reduced in place), the
entry's total drops by exactly the sold shares, realized P&L grows by the
sale proceeds minus the FIFO cost of the `s` oldest shares, and no warning
is emitted. -/
theorem fifo_disposal_correct (st : PortfolioState) (row : Transaction)
    (entry : HoldingsData) (a s : ℚ)
    (ht : row.ttype = "Sell" ∨ row.ttype = "Swap out")
    (ha : row.amount = some a) (hs : row.shares = some s)
    (he : alistGet st.holdings (get_canonical_name row.instrument) = some entry)
    (hpos : ∀ lot ∈ entry.lots, 0 < lot.shares)
    (h0 : 0 ≤ s) (hle : s ≤ totalSharesOfLots entry.lots) :
    processTx st row =
      { st with
        holdings := alistSet st.holdings (get_canonical_name row.instrument)
          ({ entry with
             lots := fifoRest s entry.lots,
             total_shares := entry.total_shares - s }),
        realized_pl := st.realized_pl +
          ((if s ≠ 0 then a / s else 0) * s - fifoCost s entry.lots) } := by
  have hf := fifoSell_spec (if s ≠ 0 then a / s else 0) s entry.lots hpos h0 hle
  rcases ht with ht | ht <;>
  · simp only [processTx, ht, ha, hs, he, hf]
    simp

/-- Witness for C1 at the spec's concrete input: lots
`[{10 @ 5}, {10 @ 7}]`, sell 15 shares for €150 (price 10): realized P&L
rises by exactly 65 and the remaining queue is `[{5 @ 7}]`. -/
theorem fifo_disposal_correct_witness :
    processTx
        ⟨[("acme", ⟨[⟨"2024-01-01", 10, 5⟩, ⟨"2024-02-01", 10, 7⟩], 20,
            none, none, none, none⟩)], 0, []⟩
        ⟨"2024-03-01", "Sell", "acme", some 150, some 15⟩
      = ⟨[("acme", ⟨[⟨"2024-02-01", 5, 7⟩], 5, none, none, none, none⟩)], 65, []⟩ := by
  have h := fifo_disposal_correct
    ⟨[("acme", ⟨[⟨"2024-01-01", 10, 5⟩, ⟨"2024-02-01", 10, 7⟩], 20,
        none, none, none, none⟩)], 0, []⟩
    ⟨"2024-03-01", "Sell", "acme", some 150, some 15⟩
    ⟨[⟨"2024-01-01", 10, 5⟩, ⟨"2024-02-01", 10, 7⟩], 20, none, none, none, none⟩
    150 15 (Or.inl rfl) rfl rfl
    (by rw [show get_canonical_name "acme" = "acme" from by decide]; simp [alistGet])
    (by intro lot hl
        simp only [List.mem_cons, List.not_mem_nil, or_false] at hl
        rcases hl with h | h <;> subst h <;> norm_num)
    (by norm_num)
    (by norm_num [totalSharesOfLots])
  rw [h]
  rw [show get_canonical_name "acme" = "acme" from by decide]
  norm_num [alistSet, fifoRest, fifoCost]

/-- C4: a Sell / Swap-out that asks for more shares than the recorded lots
hold realizes P&L only for the lots that existed (whole-queue profit at the
sale price), clamps the instrument to zero lots and zero total shares
(given the ledger invariant, never negative), and logs the over-sell
warning. -/
theorem oversell_clamp (st : PortfolioState) (row : Transaction)
    (entry : HoldingsData) (a s : ℚ)
    (ht : row.ttype = "Sell" ∨ row.ttype = "Swap out")
    (ha : row.amount = some a) (hs : row.shares = some s)
    (he : alistGet st.holdings (get_canonical_name row.instrument) = some entry)
    (hpos : ∀ lot ∈ entry.lots, 0 < lot.shares)
    (hinv : entry.total_shares = totalSharesOfLots entry.lots)
    (hover : totalSharesOfLots entry.lots < s) :
    processTx st row =
      { st with
        holdings := alistSet st.holdings (get_canonical_name row.instrument)
          ({ entry with lots := [], total_shares := 0 }),
        realized_pl := st.realized_pl +
          ((if s ≠ 0 then a / s else 0) * totalSharesOfLots entry.lots
            - totalCostOfLots entry.lots),
        warnings := st.warnings ++
          [Warning.oversold (get_canonical_name row.instrument)] } := by
  have hf := fifoSell_all (if s ≠ 0 then a / s else 0) s entry.lots hpos hover
  rcases ht with ht | ht <;>
  · simp only [processTx, ht, ha, hs, he, hf]
    rw [hinv]
    simp [sub_pos.mpr hover]

/-- Witness for C4 at the spec's concrete input: selling 25 shares for €250
(price 10) against lots `[{10 @ 5}, {10 @ 7}]` (20 shares) realizes profit
for exactly the 20 recorded shares (€80), clamps the entry to zero lots and
zero shares, and logs the over-sell warning. -/
theorem oversell_clamp_witness :
    processTx
        ⟨[("acme", ⟨[⟨"2024-01-01", 10, 5⟩, ⟨"2024-02-01", 10, 7⟩], 20,
            none, none, none, none⟩)], 0, []⟩
        ⟨"2024-03-01", "Sell", "acme", some 250, some 25⟩
      = ⟨[("acme", ⟨[], 0, none, none, none, none⟩)], 80,
          [Warning.oversold "acme"]⟩ := by
  have h := oversell_clamp
    ⟨[("acme", ⟨[⟨"2024-01-01", 10, 5⟩, ⟨"2024-02-01", 10, 7⟩], 20,
        none, none, none, none⟩)], 0, []⟩
    ⟨"2024-03-01", "Sell", "acme", some 250, some 25⟩
    ⟨[⟨"2024-01-01", 10, 5⟩, ⟨"2024-02-01", 10, 7⟩], 20, none, none, none, none⟩
    250 25 (Or.inl rfl) rfl rfl
    (by rw [show get_canonical_name "acme" = "acme" from by decide]; simp [alistGet])
    (by intro lot hl
        simp only [List.mem_cons, List.not_mem_nil, or_false] at hl
        rcases hl with h | h <;> subst h <;> norm_num)
    (by norm_num [totalSharesOfLots])
    (by norm_num [totalSharesOfLots])
  rw [h]
  rw [show get_canonical_name "acme" = "acme" from by decide]
  norm_num [alistSet, totalSharesOfLots, totalCostOfLots]


theorem totalSharesOfLots_append (xs ys : List Lot) :
    totalSharesOfLots (xs ++ ys) = totalSharesOfLots xs + totalSharesOfLots ys := by
  simp [totalSharesOfLots]

/-- Every single ledger transition preserves the core invariant. -/
theorem processTx_preserves_inv (st : PortfolioState) (row : Transaction)
    (h : LedgerInv st) : LedgerInv (processTx st row) := by
  unfold LedgerInv at h ⊢
  intro kv hkv
  unfold processTx at hkv
  dsimp only at hkv
  split at hkv
  · exact h kv hkv
  · split at hkv
    · -- Distribution
      split at hkv <;> exact h kv hkv
    · -- numeric parse
      split at hkv
      · -- both fields parsed
        split at hkv
        · -- Buy / Savings Plan / Swap in
          refine alistSet_forall _ _ _ h ?_ kv hkv
          dsimp only
          cases hget : alistGet st.holdings (get_canonical_name row.instrument) with
          | none => simp [Option.getD, totalSharesOfLots]
          | some entry =>
            have hE : entry.total_shares = totalSharesOfLots entry.lots :=
              alistGet_forall st.holdings _ entry h hget
            simp only [Option.getD]
            simp [totalSharesOfLots] at hE ⊢
            linarith
        · split at hkv
          · -- Sell / Swap out, instrument tracked
            split at hkv
            · rename_i entry heq
              refine alistSet_forall _ _ _ h ?_ kv hkv
              have hE : entry.total_shares = totalSharesOfLots entry.lots :=
                alistGet_forall st.holdings _ entry h heq
              dsimp only
              rw [fifoSell_consumed]
              linarith
            · exact h kv hkv
          · exact h kv hkv
      · exact h kv hkv

/-- C2: starting from the empty portfolio, after processing any prefix of
the transaction list (hence also the final state) every holdings entry's
`total_shares` equals the sum of its lots' share counts. -/
theorem ledger_total_shares_invariant (transactions : List Transaction) (n : ℕ) :
    LedgerInv (process_transactions (transactions.take n)) := by
  have hfold : ∀ (txs : List Transaction) (st : PortfolioState),
      LedgerInv st → LedgerInv (txs.foldl processTx st) := by
    intro txs
    induction txs with
    | nil => intro st h; exact h
    | cons t ts ih => intro st h; exact ih _ (processTx_preserves_inv st t h)
  exact hfold _ _ (by intro kv hkv; cases hkv)

/-- Witness for C2: the invariant instantiated at a concrete two-element
transaction list (a buy followed by a partial sell). -/
theorem ledger_total_shares_invariant_witness :
    LedgerInv (process_transactions
      ([⟨"2024-01-01", "Buy", "acme", some (-50), some 10⟩,
        ⟨"2024-01-02", "Sell", "acme", some 60, some 4⟩].take 2)) :=
  ledger_total_shares_invariant
    [⟨"2024-01-01", "Buy", "acme", some (-50), some 10⟩,
     ⟨"2024-01-02", "Sell", "acme", some 60, some 4⟩] 2


/-- If the running profit stays below the target on every prefix, the
solver loop never breaks: it accumulates every lot and ends with the last
lot in the loop variable. -/
theorem solveLoop_no_break (cp d : ℚ) (lots : List Lot) (s r p c : ℚ) (l0 : Option Lot)
    (H : ∀ k, k ≤ lots.length → r + profitOfLots cp (lots.take k) < d) :
    solveLoop cp d lots s r p c l0 =
      (s + totalSharesOfLots lots, r + profitOfLots cp lots,
       p + cp * totalSharesOfLots lots, c + totalCostOfLots lots, lastOf lots l0) := by
  induction lots generalizing s r p c l0 with
  | nil =>
    simp [solveLoop, totalSharesOfLots, totalCostOfLots, profitOfLots, lastOf]
  | cons lot rest ih =>
    have h0 : r < d := by
      have := H 0 (Nat.zero_le _)
      simpa [profitOfLots, totalSharesOfLots, totalCostOfLots] using this
    have Hrest : ∀ k, k ≤ rest.length →
        (r + (lot.shares * cp - lot.shares * lot.cost_per_share)) +
          profitOfLots cp (rest.take k) < d := by
      intro k hk
      have := H (k + 1) (by simpa using Nat.succ_le_succ hk)
      simp only [List.take_succ_cons, profitOfLots, totalSharesOfLots_cons,
        totalCostOfLots_cons] at this
      simp only [profitOfLots]
      linarith
    have ihr := ih (s + lot.shares) (r + (lot.shares * cp - lot.shares * lot.cost_per_share))
      (p + lot.shares * cp) (c + lot.shares * lot.cost_per_share) (some lot) Hrest
    simp only [solveLoop, if_neg (not_le.mpr h0), ihr, lastOf, profitOfLots,
      totalSharesOfLots_cons, totalCostOfLots_cons, Prod.mk.injEq, and_true, true_and]
    refine ⟨by ring, by ring, by ring, by ring⟩

/-- C6: when the lots are exhausted before the running profit reaches the
desired profit, `calculate_shares_to_sell` does not fail — it reports the
infeasible outcome carrying the total shares held (all of them) and the
maximum achievable profit (selling every lot at the current price). -/
theorem solver_infeasible_reports_max (data : HoldingsData) (desired cp : ℚ)
    (hp : data.current_price = some cp) (hts : 0 < data.total_shares) (hcp : cp ≠ 0)
    (H : ∀ k, k ≤ data.lots.length → profitOfLots cp (data.lots.take k) < desired) :
    calcEntryPlan data desired =
      some (PlanResult.infeasible (totalSharesOfLots data.lots)
        (profitOfLots cp data.lots)) := by
  have hloop := solveLoop_no_break cp desired data.lots 0 0 0 0 none
    (by intro k hk; simpa using H k hk)
  have hPd : profitOfLots cp data.lots < desired := by
    have := H data.lots.length le_rfl
    simpa using this
  simp only [calcEntryPlan, hp, hloop, zero_add]
  rw [if_pos ⟨hts, hcp⟩, if_neg (not_le.mpr hPd)]

/-- Witness for C6 at the spec's concrete input: one lot `{10 @ 5}`, price
10, desired profit 1000 — infeasible, reporting 10 required shares and a
maximum achievable profit of 50. -/
theorem solver_infeasible_reports_max_witness :
    calcEntryPlan ⟨[⟨"2024-01-01", 10, 5⟩], 10, some 10, none, none, none⟩ 1000
      = some (PlanResult.infeasible 10 50) := by
  have h := solver_infeasible_reports_max
    ⟨[⟨"2024-01-01", 10, 5⟩], 10, some 10, none, none, none⟩ 1000 10 rfl (by norm_num)
    (by norm_num)
    (by intro k hk
        simp at hk
        interval_cases k <;>
          norm_num [profitOfLots, totalSharesOfLots, totalCostOfLots])
  rw [h]
  norm_num [profitOfLots, totalSharesOfLots, totalCostOfLots]

/-- C5 (code bug): for a negative desired profit the loop breaks before
accumulating anything and the adjustment step then reports a plan with a
NEGATIVE number of shares to sell (and negative proceeds): at lots
`[{10 @ 5}]`, price 10, desired profit −30 the solver returns −6 shares.
A loss-harvesting sale can never be expressed as selling a negative
quantity, so the code does not produce a correct plan for
`desired_profit ≤ 0`. -/
theorem solver_negative_target_negative_shares :
    calcEntryPlan ⟨[⟨"2024-01-01", 10, 5⟩], 10, some 10, none, none, none⟩ (-30)
      = some (PlanResult.feasible (-6) (-60) (-30) (-30)) ∧ ((-6 : ℚ) < 0) :=
  ⟨by norm_num [calcEntryPlan, solveLoop], by norm_num⟩

/-- C3 (code bug): at lots `[{10 @ 5}, {10 @ 7}]`, price 10, desired profit
30 the loop accumulates the first lot (profit 50 ≥ 30) and then breaks at
the SECOND lot, so the Python loop variable `lot` holds the lot that was
never accumulated and the excess-share adjustment divides by the wrong cost
basis: the solver reports selling 10/3 shares with cost basis 10/3, but the
FIFO cost of the 10/3 oldest shares is 50/3 (they come from the €5 lot), so
the reported cost basis is not the FIFO cost of the reported shares and the
reported plan actually realizes 50/3 ≈ 16.67, not the promised 30 (the
correct answer is 6 shares from the first lot). -/
theorem solver_break_uses_wrong_lot :
    calcEntryPlan
        ⟨[⟨"2024-01-01", 10, 5⟩, ⟨"2024-02-01", 10, 7⟩], 20, some 10, none, none, none⟩ 30
      = some (PlanResult.feasible (10/3) (100/3) (10/3) 30) ∧
    fifoCost (10/3) [⟨"2024-01-01", 10, 5⟩, ⟨"2024-02-01", 10, 7⟩] = 50/3 ∧
    ((10 : ℚ)/3 ≠ 50/3) :=
  ⟨by norm_num [calcEntryPlan, solveLoop], by norm_num [fifoCost], by norm_num⟩

/-- The valuation loop, entry by entry, equals the specification-side
projection: entries are annotated by `annotateEntry`, the two totals are
sums of the per-entry contributions, and exactly the positive-share entries
without a price are warned about. -/
theorem simulateEntries_eq (hs : List (String × HoldingsData)) :
    simulateEntries hs =
      (hs.map annotateEntry, (hs.map entryValue).sum, (hs.map entryUnrealized).sum,
       hs.filterMap entryWarning) := by
  induction hs with
  | nil => simp [simulateEntries]
  | cons kv rest ih =>
    obtain ⟨k, data⟩ := kv
    by_cases hts : data.total_shares > 0
    · cases hpr : alistGet FIXED_PRICES k with
      | none =>
        simp only [simulateEntries, hpr, ih, if_pos hts]
        simp [annotateEntry, entryValue, entryUnrealized, entryWarning, hts, hpr]
      | some p =>
        simp only [simulateEntries, hpr, ih, if_pos hts]
        simp [annotateEntry, entryValue, entryUnrealized, entryWarning, hts, hpr]
    · simp only [simulateEntries, if_neg hts, ih]
      simp [annotateEntry, entryValue, entryUnrealized, entryWarning, hts]

/-- C7: `simulate_portfolio` annotates every positive-share entry that has
a price with `current_value = total_shares * price`,
`total_cost = Σ lot.shares * lot.cost_per_share`,
`unrealized_pl = current_value - total_cost`, aggregates the totals over
exactly the valued entries, reports `total_profit = realized_pl + total
unrealized P&L`, and skips (with a warning, excluded from all totals) every
positive-share entry without a price while still valuing the rest. -/
theorem valuation_correct (holdings : List (String × HoldingsData)) (realized_pl : ℚ) :
    simulate_portfolio holdings realized_pl =
      (holdings.map annotateEntry,
       (holdings.map entryValue).sum,
       realized_pl + (holdings.map entryUnrealized).sum,
       (holdings.map entryUnrealized).sum,
       realized_pl,
       holdings.filterMap entryWarning) := by
  unfold simulate_portfolio
  rw [simulateEntries_eq]

/-- Valuation does not touch an entry's key, lot queue or total shares. -/
theorem annotateEntry_core (kv : String × HoldingsData) :
    ((annotateEntry kv).1, (annotateEntry kv).2.lots, (annotateEntry kv).2.total_shares)
      = (kv.1, kv.2.lots, kv.2.total_shares) := by
  unfold annotateEntry
  split
  · cases h : alistGet FIXED_PRICES kv.1 <;> simp
  · rfl

/-- C9: running the valuation engine and then the target-profit solver
leaves every lot queue, every entry's total shares and the realized P&L
unchanged — valuation only writes the four derived fields, and the solver
(whose state is threaded explicitly in this embedding because the source
function only reads the dict) writes nothing at all. -/
theorem valuation_solver_frame (holdings : List (String × HoldingsData))
    (realized_pl desired : ℚ) :
    ((simulate_portfolio holdings realized_pl).1.map
        (fun kv => (kv.1, kv.2.lots, kv.2.total_shares))
      = holdings.map (fun kv => (kv.1, kv.2.lots, kv.2.total_shares))) ∧
    (simulate_portfolio holdings realized_pl).2.2.2.2.1 = realized_pl ∧
    (calculate_shares_to_sell (simulate_portfolio holdings realized_pl).1 desired).1
      = (simulate_portfolio holdings realized_pl).1 := by
  refine ⟨?_, rfl, rfl⟩
  unfold simulate_portfolio
  rw [simulateEntries_eq]
  dsimp only
  rw [List.map_map]
  apply List.map_congr_left
  intro kv _
  exact annotateEntry_core kv
